import Mathlib

/-!
Shallow embedding of the Tokyo-Olympic data-engineering notebook
(`Transformation-Notebook.py`).

The notebook is a PySpark pipeline.  We embed:

* a generic table model (`Table` = list of rows, a row being an
  association list from column name to an optional cell value) for the
  cleaning stage (`dropDuplicates`, `fillna`, `withColumnRenamed`) and
  the left-outer-join stage, following PySpark's documented semantics:
  `fillna` replaces nulls only in mapped columns, `withColumnRenamed`
  is a no-op when the source column is absent, a left join keeps every
  left row and null-fills the right side when there is no match, and
  null join keys never compare equal;
* a typed model of the cleaned Medals table (`MedalRow`) for the
  window-function stage.  Spark's `Window.partitionBy('MedalCountry')
  .orderBy(desc Total)` with `rank()` and `sum(Total)` uses the default
  growing RANGE frame; we model execution operationally: each partition
  is sorted by Total descending (an insertion sort, the tie-break order
  being whatever the sort produces), `rank` is assigned sequentially
  (a row tied with its predecessor repeats the predecessor's rank,
  otherwise the rank is the 1-based position) and the cumulative sum at
  a row extends through the row's whole peer group (value-based frame);
* the pivot (group-by-country sums of Gold/Silver/Bronze), the
  `stack(3, ...)` unpivot, the group-count aggregations and the
  `categorize_region` UDF.
-/

/-- A cell value of a table: the CSVs hold strings and (inferred) integers. -/
inductive Value where
  | str : String → Value
  | int : Int → Value
  deriving DecidableEq

/-- A row: association list from column name to cell content, `none` being SQL null. -/
abbrev Row := List (String × Option Value)

/-- A table: a list of rows. -/
abbrev Table := List Row

/-- `df.dropDuplicates()`: remove exact-duplicate rows. -/
def dropDuplicates (t : Table) : Table :=
  t.dedup

/-- Fill one row: every null cell whose column is a key of the fill map
gets the mapped default; other cells are unchanged.  Map keys that match
no column are ignored, as PySpark's `fillna` ignores them. -/
def fillRow (m : List (String × Value)) (row : Row) : Row :=
  row.map (fun cv =>
    match cv.2 with
    | none =>
      match m.lookup cv.1 with
      | some d => (cv.1, some d)
      | none => (cv.1, none)
    | some x => (cv.1, some x))

/-- `df.fillna(m)`: fill every row of the table. -/
def fillna (m : List (String × Value)) (t : Table) : Table :=
  t.map (fillRow m)

/-- `df.withColumnRenamed(old, nw)`: rename column `old` to `nw` in every
row.  Per the PySpark documentation this is a no-op if the schema does
not contain `old`. -/
def withColumnRenamed (old nw : String) (t : Table) : Table :=
  t.map (fun row => row.map (fun cv => if cv.1 = old then (nw, cv.2) else cv))

/-- Fill map of the Athletes table (source line 22). -/
def athletesFillMap : List (String × Value) :=
  [("Country", Value.str "Unknown"), ("Discipline", Value.str "Unknown")]

/-- Fill map of the Coaches table (source line 23). -/
def coachesFillMap : List (String × Value) :=
  [("Country", Value.str "Unknown"), ("Discipline", Value.str "Unknown"),
   ("Event", Value.str "Unknown")]

/-- Fill map of the EntriesGender table (source line 24). -/
def entriesGenderFillMap : List (String × Value) :=
  [("Female", Value.int 0), ("Male", Value.int 0), ("Total", Value.int 0)]

/-- Fill map of the Medals table (source line 25). -/
def medalsFillMap : List (String × Value) :=
  [("TeamCountry", Value.str "Unknown"), ("Gold", Value.int 0),
   ("Silver", Value.int 0), ("Bronze", Value.int 0), ("Total", Value.int 0),
   ("Rank by Total", Value.int 0)]

/-- Fill map of the Teams table (source line 26). -/
def teamFillMap : List (String × Value) :=
  [("Discipline", Value.str "Unknown"), ("Country", Value.str "Unknown"),
   ("Event", Value.str "Unknown")]

/-- Source line 22: clean the Athletes table. -/
def cleanAthletes (t : Table) : Table :=
  withColumnRenamed "Country" "AthleteCountry" (fillna athletesFillMap (dropDuplicates t))

/-- Source line 23: clean the Coaches table. -/
def cleanCoaches (t : Table) : Table :=
  withColumnRenamed "Country" "CoachCountry" (fillna coachesFillMap (dropDuplicates t))

/-- Source line 24: clean the EntriesGender table (no rename). -/
def cleanEntriesGender (t : Table) : Table :=
  fillna entriesGenderFillMap (dropDuplicates t)

/-- Source line 25: clean the Medals table. -/
def cleanMedals (t : Table) : Table :=
  withColumnRenamed "TeamCountry" "MedalCountry" (fillna medalsFillMap (dropDuplicates t))

/-- Source line 26: clean the Teams table. -/
def cleanTeam (t : Table) : Table :=
  withColumnRenamed "Country" "TeamCountry" (fillna teamFillMap (dropDuplicates t))

/-- Look a column up in a row (first matching column, as Spark resolves
an ambiguous name from the left side of a chain of joins). -/
def rowLookup (row : Row) (c : String) : Option Value :=
  match row.lookup c with
  | some v => v
  | none => none

/-- SQL equality of two join keys: null never equals anything. -/
def joinMatch (l r : Row) (kl kr : String) : Bool :=
  match rowLookup l kl, rowLookup r kr with
  | some a, some b => a = b
  | _, _ => false

/-- An all-null row over a schema, used to pad unmatched left rows. -/
def nullRow (schema : List String) : Row :=
  schema.map (fun c => (c, none))

/-- The schema of a table (column names of its first row). -/
def tableSchema (t : Table) : List String :=
  match t with
  | [] => []
  | row :: _ => row.map Prod.fst

/-- `L.join(R, L[kl] == R[kr], 'left')`: left outer join.  Every left row
appears once per matching right row, or once with a null-filled right
side when no right row matches. -/
def leftJoin (L R : Table) (kl kr : String) : Table :=
  L.flatMap (fun l =>
    match R.filter (fun r => joinMatch l r kl kr) with
    | [] => [l ++ nullRow (tableSchema R)]
    | m :: ms => (m :: ms).map (fun r => l ++ r))

/-- Source line 44. -/
def athletes_medals_df (athletes medals : Table) : Table :=
  leftJoin athletes medals "AthleteCountry" "MedalCountry"

/-- Source line 45. -/
def athletes_medals_entries_df (athletes medals entries : Table) : Table :=
  leftJoin (athletes_medals_df athletes medals) entries "Discipline" "Discipline"

/-- Source line 46. -/
def full_df (athletes medals entries coaches : Table) : Table :=
  leftJoin (athletes_medals_entries_df athletes medals entries) coaches "Discipline" "Discipline"

/-- Source line 47. -/
def final_df (athletes medals entries coaches team : Table) : Table :=
  leftJoin (full_df athletes medals entries coaches) team "Discipline" "Discipline"

/-- A row of the cleaned Medals table: after cleaning, every mapped
column is non-null, so the cells are typed directly. -/
structure MedalRow where
  country : String
  gold : Int
  silver : Int
  bronze : Int
  total : Int
  rankByTotal : Int
  deriving DecidableEq

/-- The rows of one `MedalCountry` window partition. -/
def medalPartition (t : List MedalRow) (c : String) : List MedalRow :=
  t.filter (fun r => decide (r.country = c))

/-- The distinct countries of a Medals table, in order of last occurrence. -/
def medalCountries (t : List MedalRow) : List String :=
  (t.map (fun r => r.country)).dedup

/-- Insert a row into a Total-descending sorted list, keeping it sorted. -/
def insertTotalDesc (r : MedalRow) : List MedalRow → List MedalRow
  | [] => [r]
  | x :: xs => if x.total < r.total then r :: x :: xs else x :: insertTotalDesc r xs

/-- Sort a partition by `Total` descending (insertion sort; the order
among tied rows stands in for the engine's internal tie-break, which the
pipeline leaves unspecified). -/
def sortTotalDesc (p : List MedalRow) : List MedalRow :=
  p.foldr insertTotalDesc []

/-- Sequential assignment of SQL `RANK()` over an already-sorted
partition: `pos` is the 1-based position of the next row, `curRank` the
rank of the previous row and `prevTotal` its ordering key; a row tied
with its predecessor repeats `curRank`, otherwise its rank is `pos`. -/
def rankAux : Nat → Nat → Int → List MedalRow → List (MedalRow × Nat)
  | _, _, _, [] => []
  | pos, curRank, prevTotal, r :: rest =>
    if r.total = prevTotal then (r, curRank) :: rankAux (pos + 1) curRank r.total rest
    else (r, pos) :: rankAux (pos + 1) pos r.total rest

/-- `rank().over(window_spec)` on one sorted partition: the first row
has rank 1, later rows are ranked by `rankAux`. -/
def rankSeq : List MedalRow → List (MedalRow × Nat)
  | [] => []
  | r :: rest => (r, 1) :: rankAux 2 1 r.total rest

/-- Sum of `Total` over the rows at the head of `rest` tied with the
ordering key `total` (the rest of the current row's peer group). -/
def peerSum (total : Int) (rest : List MedalRow) : Int :=
  ((rest.takeWhile (fun x => decide (x.total = total))).map (fun x => x.total)).sum

/-- `sum('Total').over(window_spec)` on one sorted partition: Spark's
default frame with an ORDER BY is the growing RANGE frame, so the sum
at a row covers all earlier rows (`acc`), the row itself, and the
remaining rows tied with it. -/
def cumAux : Int → List MedalRow → List (MedalRow × Int)
  | _, [] => []
  | acc, r :: rest =>
    (r, acc + r.total + peerSum r.total rest) :: cumAux (acc + r.total) rest

/-- Cumulative `Total` over one sorted partition. -/
def cumSeq (s : List MedalRow) : List (MedalRow × Int) :=
  cumAux 0 s

/-- Source line 84: the Medals table with the window rank attached to
each row, computed partition by partition. -/
def ranked_df (t : List MedalRow) : List (MedalRow × Nat) :=
  (medalCountries t).flatMap (fun c => rankSeq (sortTotalDesc (medalPartition t c)))

/-- Source line 85: the Medals table with the cumulative medal sum
attached to each row, computed partition by partition. -/
def cumulative_medals_df (t : List MedalRow) : List (MedalRow × Int) :=
  (medalCountries t).flatMap (fun c => cumSeq (sortTotalDesc (medalPartition t c)))

/-- A row of the pivoted table: one country with its summed medal counts. -/
structure PivotRow where
  country : String
  gold : Int
  silver : Int
  bronze : Int
  deriving DecidableEq

/-- Sum of one medal column over a country's rows. -/
def sumByCountry (t : List MedalRow) (c : String) (f : MedalRow → Int) : Int :=
  ((medalPartition t c).map f).sum

/-- Source lines 104-108: `medals_df.groupBy('MedalCountry').agg(sum(Gold), sum(Silver), sum(Bronze))`. -/
def pivot_df (t : List MedalRow) : List PivotRow :=
  (medalCountries t).map (fun c =>
    { country := c
      gold := sumByCountry t c (fun r => r.gold)
      silver := sumByCountry t c (fun r => r.silver)
      bronze := sumByCountry t c (fun r => r.bronze) })

/-- A row of the unpivoted (long-format) table. -/
structure UnpivotRow where
  country : String
  medal : String
  count : Int
  deriving DecidableEq

/-- Source lines 111-114: `stack(3, 'Gold', Gold, 'Silver', Silver,
'Bronze', Bronze)` emits three rows per pivoted row, in that order. -/
def unpivot_df (p : List PivotRow) : List UnpivotRow :=
  p.flatMap (fun r =>
    [{ country := r.country, medal := "Gold", count := r.gold },
     { country := r.country, medal := "Silver", count := r.silver },
     { country := r.country, medal := "Bronze", count := r.bronze }])

/-- Re-pivot of the long-format table: group by country and medal label
and sum `Count` (the inverse direction of the round-trip). -/
def repivotSum (u : List UnpivotRow) (c medal : String) : Int :=
  ((u.filter (fun x => decide (x.country = c ∧ x.medal = medal))).map (fun x => x.count)).sum

/-- `df.groupBy(key).count()`: one output row per distinct key value,
carrying the number of source rows with that value. -/
def groupBy_count {α β : Type} [DecidableEq β] (key : α → β) (t : List α) : List (β × Nat) :=
  ((t.map key).dedup).map (fun c => (c, t.countP (fun r => decide (key r = c))))

/-- Source line 61: `medals_df.groupBy('MedalCountry').count()`. -/
def medals_per_country (t : List MedalRow) : List (String × Nat) :=
  groupBy_count (fun r => r.country) t

/-- Source line 64: `athletes_df.groupBy('Discipline').count()` over the
generic table model. -/
def participants_per_discipline (t : Table) : List (Option Value × Nat) :=
  groupBy_count (fun row => rowLookup row "Discipline") t

/-- Source lines 131-137: the region-categorization UDF, a direct
translation of the Python conditional. -/
def categorize_region (country : String) : String :=
  if country ∈ ["USA", "Canada", "Mexico"] then "North America"
  else if country ∈ ["UK", "France", "Germany"] then "Europe"
  else "Other"

/-- A raw Athletes table: one row with a null Country, one with the
literal fill default already present.  Concrete input for the cleaning
claims. -/
def exRawAthletes : Table :=
  [[("Country", none), ("Discipline", some (Value.str "X"))],
   [("Country", some (Value.str "Unknown")), ("Discipline", some (Value.str "X"))]]

/-- A Medals-like table lacking the `TeamCountry` column. -/
def exNoTeamCountry : Table :=
  [[("Gold", some (Value.int 1)), ("Total", some (Value.int 1))]]

/-- A small cleaned Medals table: two USA rows with different totals and
one CAN row.  Concrete input for the window-function claims. -/
def exMedals : List MedalRow :=
  [⟨"USA", 10, 5, 3, 18, 1⟩, ⟨"USA", 1, 1, 0, 2, 2⟩, ⟨"CAN", 3, 5, 6, 14, 1⟩]

/-- The Total-descending order relation used by the window sort. -/
def totalGE (a b : MedalRow) : Prop :=
  b.total ≤ a.total

theorem insertTotalDesc_perm (r : MedalRow) (l : List MedalRow) :
    (insertTotalDesc r l).Perm (r :: l) := by
  induction l with
  | nil => simp [insertTotalDesc]
  | cons x xs ih =>
    by_cases h : x.total < r.total
    · simp [insertTotalDesc, h]
    · simp only [insertTotalDesc, if_neg h]
      exact (ih.cons x).trans (List.Perm.swap r x xs)

theorem insertTotalDesc_sorted (r : MedalRow) (l : List MedalRow)
    (h : l.Pairwise totalGE) : (insertTotalDesc r l).Pairwise totalGE := by
  induction l with
  | nil => simp [insertTotalDesc, totalGE]
  | cons x xs ih =>
    rcases List.pairwise_cons.mp h with ⟨hx, hxs⟩
    by_cases hlt : x.total < r.total
    · simp only [insertTotalDesc, if_pos hlt]
      refine List.pairwise_cons.mpr ⟨?_, h⟩
      intro y hy
      rcases List.mem_cons.mp hy with rfl | hy2
      · exact le_of_lt hlt
      · exact le_trans (hx y hy2) (le_of_lt hlt)
    · simp only [insertTotalDesc, if_neg hlt]
      refine List.pairwise_cons.mpr ⟨?_, ih hxs⟩
      intro y hy
      rcases List.mem_cons.mp ((insertTotalDesc_perm r xs).mem_iff.mp hy) with rfl | hy3
      · exact le_of_not_lt hlt
      · exact hx y hy3

theorem sortTotalDesc_perm (p : List MedalRow) : (sortTotalDesc p).Perm p := by
  induction p with
  | nil => simp [sortTotalDesc]
  | cons x xs ih =>
    exact (insertTotalDesc_perm x (sortTotalDesc xs)).trans (ih.cons x)

theorem sortTotalDesc_sorted (p : List MedalRow) : (sortTotalDesc p).Pairwise totalGE := by
  induction p with
  | nil => simp [sortTotalDesc]
  | cons x xs ih => exact insertTotalDesc_sorted x (sortTotalDesc xs) ih

theorem rankAux_map_fst (rest : List MedalRow) :
    ∀ (pos curRank : Nat) (prevTotal : Int),
      (rankAux pos curRank prevTotal rest).map Prod.fst = rest := by
  induction rest with
  | nil => intro pos curRank prevTotal; simp [rankAux]
  | cons r rs ih =>
    intro pos curRank prevTotal
    by_cases h : r.total = prevTotal
    · simp [rankAux, h, ih]
    · simp [rankAux, h, ih]

theorem rankSeq_map_fst (s : List MedalRow) : (rankSeq s).map Prod.fst = s := by
  cases s with
  | nil => rfl
  | cons r rest => simp [rankSeq, rankAux_map_fst]

theorem cumAux_map_fst (s : List MedalRow) :
    ∀ acc : Int, (cumAux acc s).map Prod.fst = s := by
  induction s with
  | nil => intro acc; rfl
  | cons r rs ih => intro acc; simp [cumAux, ih]

theorem rankAux_spec (rest : List MedalRow) :
    ∀ (done : List MedalRow) (prevTotal : Int) (curRank : Nat),
      (done ++ rest).Pairwise totalGE →
      (∀ x ∈ rest, x.total ≤ prevTotal) →
      (∀ x ∈ done, prevTotal ≤ x.total) →
      curRank = 1 + done.countP (fun x => decide (prevTotal < x.total)) →
      ∀ rk ∈ rankAux (done.length + 1) curRank prevTotal rest,
        rk.2 = 1 + (done ++ rest).countP (fun x => decide (rk.1.total < x.total)) := by
  induction rest with
  | nil =>
    intro done prevTotal curRank _ _ _ _ rk hrk
    simp [rankAux] at hrk
  | cons r rs ih =>
    intro done prevTotal curRank hsort hrest hdone hcur rk hrk
    have hd_r : ∀ x ∈ done, r.total ≤ x.total := by
      intro x hx
      exact (List.pairwise_append.mp hsort).2.2 x hx r (by simp)
    have hr_rs : ∀ x ∈ rs, x.total ≤ r.total := by
      have h2 := (List.pairwise_append.mp hsort).2.1
      exact fun x hx => (List.pairwise_cons.mp h2).1 x hx
    have hcount_rs : rs.countP (fun x => decide (r.total < x.total)) = 0 :=
      List.countP_eq_zero.mpr (fun x hx => by simp [not_lt.mpr (hr_rs x hx)])
    have hsplit : (done ++ [r]) ++ rs = done ++ r :: rs := by simp
    have hfull : (done ++ r :: rs).countP (fun x => decide (r.total < x.total)) =
        done.countP (fun x => decide (r.total < x.total)) := by
      rw [List.countP_append, List.countP_cons]
      simp [hcount_rs]
    have hdone2 : ∀ x ∈ done ++ [r], r.total ≤ x.total := by
      intro x hx
      rcases List.mem_append.mp hx with hx1 | hx2
      · exact hd_r x hx1
      · rw [List.mem_singleton.mp hx2]
    have hsort2 : ((done ++ [r]) ++ rs).Pairwise totalGE := by
      rw [hsplit]; exact hsort
    have hlen : done.length + 1 + 1 = (done ++ [r]).length + 1 := by simp
    by_cases heq : r.total = prevTotal
    · subst heq
      simp only [rankAux, if_pos rfl] at hrk
      rcases List.mem_cons.mp hrk with rfl | htail
      · simpa [hfull] using hcur
      · have hcur2 : curRank = 1 + (done ++ [r]).countP (fun x => decide (r.total < x.total)) := by
          rw [List.countP_append]
          simpa using hcur
        have := ih (done ++ [r]) r.total curRank hsort2 hr_rs hdone2 hcur2 rk
          (by rw [← hlen]; exact htail)
        rwa [hsplit] at this
    · have hlt : r.total < prevTotal := lt_of_le_of_ne (hrest r (by simp)) heq
      have hcd : done.countP (fun x => decide (r.total < x.total)) = done.length :=
        List.countP_eq_length.mpr (fun x hx => by
          simp [lt_of_lt_of_le hlt (hdone x hx)])
      simp only [rankAux, if_neg heq] at hrk
      rcases List.mem_cons.mp hrk with rfl | htail
      · rw [hfull, hcd]
        omega
      · have hcur2 : done.length + 1 =
            1 + (done ++ [r]).countP (fun x => decide (r.total < x.total)) := by
          have h1 : List.countP (fun x => decide (r.total < x.total)) [r] = 0 := by simp
          rw [List.countP_append, hcd, h1]
          omega
        have := ih (done ++ [r]) r.total (done.length + 1) hsort2 hr_rs hdone2 hcur2 rk
          (by rw [← hlen]; exact htail)
        rwa [hsplit] at this

theorem rankSeq_spec (s : List MedalRow) (hs : s.Pairwise totalGE) :
    ∀ rk ∈ rankSeq s, rk.2 = 1 + s.countP (fun x => decide (rk.1.total < x.total)) := by
  cases s with
  | nil => intro rk hrk; simp [rankSeq] at hrk
  | cons r rest =>
    intro rk hrk
    have hr_rest : ∀ x ∈ rest, x.total ≤ r.total :=
      fun x hx => (List.pairwise_cons.mp hs).1 x hx
    rcases List.mem_cons.mp hrk with rfl | htail
    · have h0 : (r :: rest).countP (fun x => decide (r.total < x.total)) = 0 :=
        List.countP_eq_zero.mpr (by
          intro x hx
          rcases List.mem_cons.mp hx with rfl | hx2
          · simp
          · simp [not_lt.mpr (hr_rest x hx2)])
      simp [h0]
    · have := rankAux_spec rest [r] r.total 1 (by simpa using hs) hr_rest
        (by intro x hx; rw [List.mem_singleton.mp hx]) (by simp) rk htail
      simpa using this

theorem takeWhile_eq_filter_sorted (c : Int) (l : List MedalRow)
    (hs : l.Pairwise totalGE) (hb : ∀ x ∈ l, x.total ≤ c) :
    l.takeWhile (fun x => decide (x.total = c)) = l.filter (fun x => decide (x.total = c)) := by
  induction l with
  | nil => rfl
  | cons x xs ih =>
    rcases List.pairwise_cons.mp hs with ⟨hx, hxs⟩
    by_cases h : x.total = c
    · simp only [List.takeWhile_cons, List.filter_cons, h]
      simp only [decide_True, if_true]
      rw [ih hxs (fun y hy => hb y (List.mem_cons_of_mem x hy))]
    · have hxlt : x.total < c := lt_of_le_of_ne (hb x (by simp)) h
      have hnil : xs.filter (fun y => decide (y.total = c)) = [] :=
        List.filter_eq_nil_iff.mpr (by
          intro y hy
          simp [ne_of_lt (lt_of_le_of_lt (hx y hy) hxlt)])
      simp [List.takeWhile_cons, List.filter_cons, h, hnil]

theorem cumAux_spec (s : List MedalRow) :
    ∀ done : List MedalRow,
      (done ++ s).Pairwise totalGE →
      ∀ rv ∈ cumAux ((done.map (fun x => x.total)).sum) s,
        rv.2 = (((done ++ s).filter (fun x => decide (rv.1.total ≤ x.total))).map
          (fun x => x.total)).sum := by
  induction s with
  | nil => intro done _ rv hrv; simp [cumAux] at hrv
  | cons r rs ih =>
    intro done hsort rv hrv
    have hd_r : ∀ x ∈ done, r.total ≤ x.total := by
      intro x hx
      exact (List.pairwise_append.mp hsort).2.2 x hx r (by simp)
    have hcons := (List.pairwise_append.mp hsort).2.1
    have hrs_sorted : rs.Pairwise totalGE := (List.pairwise_cons.mp hcons).2
    have hr_rs : ∀ x ∈ rs, x.total ≤ r.total :=
      fun x hx => (List.pairwise_cons.mp hcons).1 x hx
    have hsplit : (done ++ [r]) ++ rs = done ++ r :: rs := by simp
    simp only [cumAux] at hrv
    rcases List.mem_cons.mp hrv with rfl | htail
    · have hfd : done.filter (fun x => decide (r.total ≤ x.total)) = done :=
        List.filter_eq_self.mpr (fun x hx => by simp [hd_r x hx])
      have hfr : rs.filter (fun x => decide (r.total ≤ x.total)) =
          rs.filter (fun x => decide (x.total = r.total)) :=
        List.filter_congr (by
          intro x hx
          by_cases h2 : x.total = r.total
          · simp [h2]
          · simp [h2, not_le.mpr (lt_of_le_of_ne (hr_rs x hx) h2)])
      have htw := takeWhile_eq_filter_sorted r.total rs hrs_sorted hr_rs
      simp only [List.filter_append, List.filter_cons, le_refl, hfd, hfr]
      simp only [decide_True, if_true, List.map_append, List.sum_append, List.map_cons,
        List.sum_cons, peerSum, htw]
      ring
    · have hsort2 : ((done ++ [r]) ++ rs).Pairwise totalGE := by
        rw [hsplit]; exact hsort
      have hacc : ((done ++ [r]).map (fun x => x.total)).sum =
          (done.map (fun x => x.total)).sum + r.total := by
        simp
      have := ih (done ++ [r]) hsort2 rv (by rw [hacc]; exact htail)
      rwa [hsplit] at this

theorem cumSeq_spec (s : List MedalRow) (hs : s.Pairwise totalGE) :
    ∀ rv ∈ cumSeq s,
      rv.2 = ((s.filter (fun x => decide (rv.1.total ≤ x.total))).map (fun x => x.total)).sum := by
  intro rv hrv
  have := cumAux_spec s [] (by simpa using hs) rv (by simpa [cumSeq] using hrv)
  simpa using this

theorem cumAux_getLast (s : List MedalRow) :
    ∀ acc : Int, s ≠ [] →
      ((cumAux acc s).getLast?).map (fun rv => rv.2) =
        some (acc + (s.map (fun x => x.total)).sum) := by
  induction s with
  | nil => intro acc h; exact absurd rfl h
  | cons r rs ih =>
    intro acc _
    cases rs with
    | nil => simp [cumAux, peerSum]
    | cons y ys =>
      have h2 := ih (acc + r.total) (by simp)
      simp only [cumAux] at h2 ⊢
      rw [List.getLast?_cons_cons, h2]
      simp only [List.map_cons, List.sum_cons, Option.some.injEq]
      ring

theorem mem_medalPartition {x : MedalRow} {t : List MedalRow} {c : String} :
    x ∈ medalPartition t c ↔ x ∈ t ∧ x.country = c := by
  simp [medalPartition]

theorem sum_map_ite_eq (keys : List String) (k : String) (v : Nat)
    (hnd : keys.Nodup) (hmem : k ∈ keys) :
    (keys.map (fun c => if k = c then v else 0)).sum = v := by
  induction keys with
  | nil => simp at hmem
  | cons a as ih =>
    rcases List.nodup_cons.mp hnd with ⟨ha, has⟩
    rcases List.mem_cons.mp hmem with rfl | hmem2
    · have h0 : (as.map (fun c => if k = c then v else 0)).sum = 0 :=
        List.sum_eq_zero (by
          intro x hx
          rcases List.mem_map.mp hx with ⟨c, hc, rfl⟩
          have hkc : ¬ (k = c) := by rintro rfl; exact ha hc
          simp [hkc])
      simp [h0]
    · have hka : ¬ (k = a) := by rintro rfl; exact ha hmem2
      simp [hka, ih has hmem2]

theorem count_medalPartition (t : List MedalRow) (c : String) (x : MedalRow) :
    List.count x (medalPartition t c) = if x.country = c then List.count x t else 0 := by
  by_cases h : x.country = c
  · rw [if_pos h]
    exact List.count_filter (by simp [h])
  · rw [if_neg h]
    refine List.count_eq_zero.mpr ?_
    intro hx
    exact h (mem_medalPartition.mp hx).2

theorem flatMap_partition_perm (t : List MedalRow) :
    ((medalCountries t).flatMap (fun c => medalPartition t c)).Perm t := by
  refine List.perm_iff_count.mpr (fun x => ?_)
  rw [List.count_flatMap]
  have hmap : (medalCountries t).map (List.count x ∘ fun c => medalPartition t c) =
      (medalCountries t).map (fun c => if x.country = c then List.count x t else 0) :=
    List.map_congr_left (fun c _ => count_medalPartition t c x)
  rw [hmap]
  by_cases hx : x ∈ t
  · have hmem : x.country ∈ medalCountries t :=
      List.mem_dedup.mpr (List.mem_map.mpr ⟨x, hx, rfl⟩)
    exact sum_map_ite_eq (medalCountries t) x.country (List.count x t)
      (List.nodup_dedup _) hmem
  · have h0 : List.count x t = 0 := List.count_eq_zero.mpr hx
    simp [h0]

theorem flatMap_perm_congr {β : Type} (keys : List String) (f g : String → List β)
    (h : ∀ c ∈ keys, (f c).Perm (g c)) :
    (keys.flatMap f).Perm (keys.flatMap g) := by
  induction keys with
  | nil => simp
  | cons a as ih =>
    simp only [List.flatMap_cons]
    exact (h a (by simp)).append (ih (fun c hc => h c (List.mem_cons_of_mem a hc)))

theorem flatMap_filter_eq_nil {β : Type} (block : String → List β) (keyOf : β → String)
    (keys : List String) (c : String)
    (hk : ∀ k ∈ keys, ∀ x ∈ block k, keyOf x = k)
    (hc : c ∉ keys) :
    (keys.flatMap block).filter (fun x => decide (keyOf x = c)) = [] := by
  apply List.filter_eq_nil_iff.mpr
  intro x hx
  rcases List.mem_flatMap.mp hx with ⟨k, hkmem, hxk⟩
  have hkx := hk k hkmem x hxk
  have hkc : ¬ (k = c) := by rintro rfl; exact hc hkmem
  simp [hkx, hkc]

theorem flatMap_filter_keyed {β : Type} (block : String → List β) (keyOf : β → String) :
    ∀ keys : List String, keys.Nodup →
      (∀ k ∈ keys, ∀ x ∈ block k, keyOf x = k) →
      ∀ c ∈ keys, (keys.flatMap block).filter (fun x => decide (keyOf x = c)) = block c := by
  intro keys
  induction keys with
  | nil => intro _ _ c hc; simp at hc
  | cons a as ih =>
    intro hnd hk c hc
    rcases List.nodup_cons.mp hnd with ⟨ha, has⟩
    simp only [List.flatMap_cons, List.filter_append]
    rcases List.mem_cons.mp hc with rfl | hc2
    · have h1 : (block c).filter (fun x => decide (keyOf x = c)) = block c :=
        List.filter_eq_self.mpr (fun x hx => by simp [hk c (by simp) x hx])
      have h2 : (as.flatMap block).filter (fun x => decide (keyOf x = c)) = [] :=
        flatMap_filter_eq_nil block keyOf as c
          (fun k hk2 => hk k (List.mem_cons_of_mem _ hk2)) ha
      rw [h1, h2, List.append_nil]
    · have hac : ¬ (a = c) := by rintro rfl; exact ha hc2
      have h1 : (block a).filter (fun x => decide (keyOf x = c)) = [] :=
        List.filter_eq_nil_iff.mpr (fun x hx => by simp [hk a (by simp) x hx, hac])
      rw [h1, List.nil_append]
      exact ih has (fun k hk2 x hx => hk k (List.mem_cons_of_mem a hk2) x hx) c hc2

theorem cumSeq_map_fst (s : List MedalRow) : (cumSeq s).map Prod.fst = s :=
  cumAux_map_fst s 0

theorem mem_of_mem_rankSeq {s : List MedalRow} {rk : MedalRow × Nat} (h : rk ∈ rankSeq s) :
    rk.1 ∈ s := by
  have h2 : rk.1 ∈ (rankSeq s).map Prod.fst := List.mem_map.mpr ⟨rk, h, rfl⟩
  rwa [rankSeq_map_fst] at h2

theorem mem_of_mem_cumSeq {s : List MedalRow} {rv : MedalRow × Int} (h : rv ∈ cumSeq s) :
    rv.1 ∈ s := by
  have h2 : rv.1 ∈ (cumSeq s).map Prod.fst := List.mem_map.mpr ⟨rv, h, rfl⟩
  rwa [cumSeq_map_fst] at h2

theorem ranked_df_char {t : List MedalRow} {rk : MedalRow × Nat} (h : rk ∈ ranked_df t) :
    rk.1 ∈ t ∧ rk ∈ rankSeq (sortTotalDesc (medalPartition t rk.1.country)) := by
  rcases List.mem_flatMap.mp h with ⟨c, _, hrk⟩
  have h1 : rk.1 ∈ sortTotalDesc (medalPartition t c) := mem_of_mem_rankSeq hrk
  have h2 : rk.1 ∈ medalPartition t c := (sortTotalDesc_perm _).mem_iff.mp h1
  rcases mem_medalPartition.mp h2 with ⟨h3, h4⟩
  exact ⟨h3, by rw [h4]; exact hrk⟩

theorem cumulative_df_char {t : List MedalRow} {rv : MedalRow × Int}
    (h : rv ∈ cumulative_medals_df t) :
    rv.1 ∈ t ∧ rv ∈ cumSeq (sortTotalDesc (medalPartition t rv.1.country)) := by
  rcases List.mem_flatMap.mp h with ⟨c, _, hrv⟩
  have h1 : rv.1 ∈ sortTotalDesc (medalPartition t c) := mem_of_mem_cumSeq hrv
  have h2 : rv.1 ∈ medalPartition t c := (sortTotalDesc_perm _).mem_iff.mp h1
  rcases mem_medalPartition.mp h2 with ⟨h3, h4⟩
  exact ⟨h3, by rw [h4]; exact hrv⟩

/-- C2: in `ranked_df`, the rank of each row is 1 plus the number of rows
of its `MedalCountry` partition with strictly greater Total; rows of a
partition tied on Total get equal ranks, and a strictly greater Total
gives a strictly smaller rank. -/
theorem C2_rank_standard_competition (t : List MedalRow) :
    (∀ rk ∈ ranked_df t,
      rk.2 = 1 + (medalPartition t rk.1.country).countP
        (fun x => decide (rk.1.total < x.total))) ∧
    (∀ a b : MedalRow × Nat, a ∈ ranked_df t → b ∈ ranked_df t →
      a.1.country = b.1.country →
      (a.1.total = b.1.total → a.2 = b.2) ∧ (b.1.total < a.1.total → a.2 < b.2)) := by
  have key : ∀ rk ∈ ranked_df t,
      rk.2 = 1 + (medalPartition t rk.1.country).countP
        (fun x => decide (rk.1.total < x.total)) := by
    intro rk hrk
    rcases ranked_df_char hrk with ⟨-, h2⟩
    have hval := rankSeq_spec _ (sortTotalDesc_sorted _) rk h2
    rwa [(sortTotalDesc_perm (medalPartition t rk.1.country)).countP_eq] at hval
  refine ⟨key, ?_⟩
  intro a b ha hb hcountry
  have hA := key a ha
  have hB := key b hb
  constructor
  · intro htot
    rw [hA, hB, hcountry, htot]
  · intro hlt
    rw [hA, hB, hcountry]
    have haP : a.1 ∈ medalPartition t b.1.country := by
      rw [← hcountry]
      exact mem_medalPartition.mpr ⟨(ranked_df_char ha).1, rfl⟩
    have h1 : (medalPartition t b.1.country).filter (fun x => decide (a.1.total < x.total)) =
        ((medalPartition t b.1.country).filter (fun x => decide (b.1.total < x.total))).filter
          (fun x => decide (a.1.total < x.total)) := by
      rw [List.filter_filter]
      refine List.filter_congr ?_
      intro x _
      by_cases hxa : a.1.total < x.total
      · simp [hxa, lt_trans hlt hxa]
      · simp [hxa]
    have h2 : (((medalPartition t b.1.country).filter
          (fun x => decide (b.1.total < x.total))).filter
          (fun x => decide (a.1.total < x.total))).length <
        ((medalPartition t b.1.country).filter
          (fun x => decide (b.1.total < x.total))).length := by
      apply List.length_filter_lt_length_iff_exists.mpr
      exact ⟨a.1, List.mem_filter.mpr ⟨haP, by simp [hlt]⟩, by simp⟩
    rw [List.countP_eq_length_filter, List.countP_eq_length_filter, h1]
    omega

/-- Witness for C2: in the concrete table `exMedals`, the USA row with
Total 2 is ranked 2 (one USA row has a strictly greater Total). -/
theorem C2_rank_witness :
    ((⟨"USA", 1, 1, 0, 2, 2⟩ : MedalRow), 2).2 =
      1 + (medalPartition exMedals ((⟨"USA", 1, 1, 0, 2, 2⟩ : MedalRow), 2).1.country).countP
        (fun x => decide (((⟨"USA", 1, 1, 0, 2, 2⟩ : MedalRow), 2).1.total < x.total)) :=
  (C2_rank_standard_competition exMedals).1 _ (by decide)

/-- C10: in `cumulative_medals_df`, the cumulative value of each row
equals the sum of Total over the rows of its partition with Total
greater than or equal to its own (the value-based RANGE frame), so rows
tied on Total receive the same value regardless of tie-break order. -/
theorem C10_cumulative_range_frame (t : List MedalRow) :
    (∀ rv ∈ cumulative_medals_df t,
      rv.2 = (((medalPartition t rv.1.country).filter
        (fun x => decide (rv.1.total ≤ x.total))).map (fun x => x.total)).sum) ∧
    (∀ a b : MedalRow × Int, a ∈ cumulative_medals_df t → b ∈ cumulative_medals_df t →
      a.1.country = b.1.country → a.1.total = b.1.total → a.2 = b.2) := by
  have key : ∀ rv ∈ cumulative_medals_df t,
      rv.2 = (((medalPartition t rv.1.country).filter
        (fun x => decide (rv.1.total ≤ x.total))).map (fun x => x.total)).sum := by
    intro rv hrv
    rcases cumulative_df_char hrv with ⟨-, h2⟩
    have hval := cumSeq_spec _ (sortTotalDesc_sorted _) rv h2
    have hperm : ((((sortTotalDesc (medalPartition t rv.1.country)).filter
          (fun x => decide (rv.1.total ≤ x.total))).map (fun x => x.total)).sum) =
        (((medalPartition t rv.1.country).filter
          (fun x => decide (rv.1.total ≤ x.total))).map (fun x => x.total)).sum :=
      (((sortTotalDesc_perm (medalPartition t rv.1.country)).filter
        (fun x => decide (rv.1.total ≤ x.total))).map (fun x => x.total)).sum_eq
    rw [hval, hperm]
  refine ⟨key, ?_⟩
  intro a b ha hb hcountry htot
  rw [key a ha, key b hb, hcountry, htot]

/-- Witness for C10: in `exMedals`, the USA row with Total 2 carries the
cumulative value 20 = 18 + 2, the sum over USA rows with Total ≥ 2. -/
theorem C10_cumulative_witness :
    ((⟨"USA", 1, 1, 0, 2, 2⟩ : MedalRow), (20 : Int)).2 =
      (((medalPartition exMedals
          ((⟨"USA", 1, 1, 0, 2, 2⟩ : MedalRow), (20 : Int)).1.country).filter
        (fun x => decide (((⟨"USA", 1, 1, 0, 2, 2⟩ : MedalRow), (20 : Int)).1.total ≤ x.total))).map
          (fun x => x.total)).sum :=
  (C10_cumulative_range_frame exMedals).1 _ (by decide)

/-- C3: within any `MedalCountry` partition, the cumulative value at the
last row of the Total-descending order is the sum of Total over the
whole partition. -/
theorem C3_cumulative_last_row (t : List MedalRow) (c : String)
    (h : medalPartition t c ≠ []) :
    ((cumSeq (sortTotalDesc (medalPartition t c))).getLast?).map (fun rv => rv.2) =
      some (((medalPartition t c).map (fun x => x.total)).sum) := by
  have hne : sortTotalDesc (medalPartition t c) ≠ [] := by
    intro h0
    apply h
    have hlen := (sortTotalDesc_perm (medalPartition t c)).length_eq
    rw [h0] at hlen
    exact List.length_eq_zero.mp hlen.symm
  have hlast := cumAux_getLast (sortTotalDesc (medalPartition t c)) 0 hne
  have hsum : ((sortTotalDesc (medalPartition t c)).map (fun x => x.total)).sum =
      ((medalPartition t c).map (fun x => x.total)).sum :=
    ((sortTotalDesc_perm _).map _).sum_eq
  rw [cumSeq, hlast, hsum]
  norm_num

/-- Witness for C3 at `exMedals` and the nonempty USA partition. -/
theorem C3_cumulative_witness :
    medalPartition exMedals "USA" ≠ [] ∧
    ((cumSeq (sortTotalDesc (medalPartition exMedals "USA"))).getLast?).map (fun rv => rv.2) =
      some (((medalPartition exMedals "USA").map (fun x => x.total)).sum) :=
  ⟨by decide, C3_cumulative_last_row exMedals "USA" (by decide)⟩

/-- C9: `ranked_df` and `cumulative_medals_df` only attach a new column:
the original Medals rows are carried unchanged (the first components are
a permutation of the input table, and the row counts agree). -/
theorem C9_window_preserves_rows (t : List MedalRow) :
    ((ranked_df t).map Prod.fst).Perm t ∧
    ((cumulative_medals_df t).map Prod.fst).Perm t ∧
    (ranked_df t).length = t.length ∧
    (cumulative_medals_df t).length = t.length := by
  have h1 : ((ranked_df t).map Prod.fst).Perm t := by
    unfold ranked_df
    rw [List.map_flatMap]
    have hp1 : ((medalCountries t).flatMap
          (fun c => (rankSeq (sortTotalDesc (medalPartition t c))).map Prod.fst)).Perm
        ((medalCountries t).flatMap (fun c => medalPartition t c)) :=
      flatMap_perm_congr _ _ _
        (fun c _ => by rw [rankSeq_map_fst]; exact sortTotalDesc_perm _)
    exact hp1.trans (flatMap_partition_perm t)
  have h2 : ((cumulative_medals_df t).map Prod.fst).Perm t := by
    unfold cumulative_medals_df
    rw [List.map_flatMap]
    have hp1 : ((medalCountries t).flatMap
          (fun c => (cumSeq (sortTotalDesc (medalPartition t c))).map Prod.fst)).Perm
        ((medalCountries t).flatMap (fun c => medalPartition t c)) :=
      flatMap_perm_congr _ _ _
        (fun c _ => by rw [cumSeq_map_fst]; exact sortTotalDesc_perm _)
    exact hp1.trans (flatMap_partition_perm t)
  refine ⟨h1, h2, ?_, ?_⟩
  · have := h1.length_eq
    simpa using this
  · have := h2.length_eq
    simpa using this

theorem leftJoin_length_le (R : Table) (kl kr : String) :
    ∀ L : Table, L.length ≤ (leftJoin L R kl kr).length := by
  intro L
  induction L with
  | nil => simp [leftJoin]
  | cons l ls ih =>
    simp only [leftJoin, List.flatMap_cons, List.length_append, List.length_cons] at ih ⊢
    have h1 : 1 ≤ (match R.filter (fun r => joinMatch l r kl kr) with
        | [] => [l ++ nullRow (tableSchema R)]
        | m :: ms => (m :: ms).map (fun r => l ++ r)).length := by
      cases hR : R.filter (fun r => joinMatch l r kl kr) with
      | nil => simp
      | cons m ms => simp
    omega

/-- C5: a left outer join never returns fewer rows than its left input,
and hence the four chained left joins of the pipeline never drop a row
contributed by the Athletes table. -/
theorem C5_left_join_lower_bound :
    (∀ (L R : Table) (kl kr : String), L.length ≤ (leftJoin L R kl kr).length) ∧
    (∀ athletes medals entries coaches team : Table,
      athletes.length ≤ (final_df athletes medals entries coaches team).length) := by
  have hgen : ∀ (L R : Table) (kl kr : String), L.length ≤ (leftJoin L R kl kr).length :=
    fun L R kl kr => leftJoin_length_le R kl kr L
  refine ⟨hgen, ?_⟩
  intro a m e c tm
  calc a.length ≤ (athletes_medals_df a m).length := hgen a m _ _
    _ ≤ (athletes_medals_entries_df a m e).length := hgen _ e _ _
    _ ≤ (full_df a m e c).length := hgen _ c _ _
    _ ≤ (final_df a m e c tm).length := hgen _ tm _ _

theorem countP_key_eq_count {α β : Type} [DecidableEq β] (key : α → β) (t : List α) (c : β) :
    t.countP (fun r => decide (key r = c)) = List.count c (t.map key) := by
  rw [List.count_eq_countP, List.countP_map]
  exact List.countP_congr (fun r _ => by simp [Function.comp])

/-- C7: a group-count outputs exactly one row per distinct key value
(including any fill default such as "Unknown", which forms its own
partition), and the counts over all partitions sum to the number of
source rows. -/
theorem C7_group_count_partitions {α β : Type} [DecidableEq β] (key : α → β) (t : List α) :
    (groupBy_count key t).map Prod.fst = (t.map key).dedup ∧
    ((groupBy_count key t).map Prod.fst).Nodup ∧
    ((groupBy_count key t).map Prod.snd).sum = t.length ∧
    (∀ c : β, c ∈ (groupBy_count key t).map Prod.fst ↔ c ∈ t.map key) := by
  have h1 : (groupBy_count key t).map Prod.fst = (t.map key).dedup := by
    unfold groupBy_count
    rw [List.map_map]
    have hid : List.map (Prod.fst ∘ fun c => (c, t.countP (fun r => decide (key r = c))))
        ((t.map key).dedup) = List.map id ((t.map key).dedup) :=
      List.map_congr_left (fun c _ => rfl)
    rw [hid, List.map_id]
  refine ⟨h1, ?_, ?_, ?_⟩
  · rw [h1]
    exact List.nodup_dedup _
  · unfold groupBy_count
    rw [List.map_map]
    have h2 : (Prod.snd ∘ fun c => (c, t.countP (fun r => decide (key r = c)))) =
        fun c => List.count c (t.map key) := by
      funext c
      exact countP_key_eq_count key t c
    rw [h2, List.sum_map_count_dedup_eq_length, List.length_map]
  · intro c
    rw [h1]
    exact List.mem_dedup

/-- C8: the region categorization is a total function into the three
labels, sending USA/Canada/Mexico to North America, UK/France/Germany to
Europe, and everything else (including "Unknown") to Other. -/
theorem C8_region_total_function :
    (∀ c : String, categorize_region c = "North America" ∨ categorize_region c = "Europe" ∨
      categorize_region c = "Other") ∧
    (∀ c ∈ ["USA", "Canada", "Mexico"], categorize_region c = "North America") ∧
    (∀ c ∈ ["UK", "France", "Germany"], categorize_region c = "Europe") ∧
    (∀ c : String, c ∉ ["USA", "Canada", "Mexico", "UK", "France", "Germany"] →
      categorize_region c = "Other") ∧
    categorize_region "USA" = "North America" ∧
    categorize_region "UK" = "Europe" ∧
    categorize_region "Brazil" = "Other" ∧
    categorize_region "Unknown" = "Other" := by
  refine ⟨?_, ?_, ?_, ?_, by decide, by decide, by decide, by decide⟩
  · intro c
    unfold categorize_region
    split
    · exact Or.inl rfl
    · split
      · exact Or.inr (Or.inl rfl)
      · exact Or.inr (Or.inr rfl)
  · intro c hc
    fin_cases hc <;> decide
  · intro c hc
    fin_cases hc <;> decide
  · intro c hc
    simp only [List.mem_cons, List.not_mem_nil, or_false, not_or] at hc
    obtain ⟨h1, h2, h3, h4, h5, h6⟩ := hc
    simp [categorize_region, h1, h2, h3, h4, h5, h6]

/-- Witness for C8 at the concrete inputs "Canada", "France", "Brazil". -/
theorem C8_region_witness :
    categorize_region "Canada" = "North America" ∧
    categorize_region "France" = "Europe" ∧
    categorize_region "Brazil" = "Other" :=
  ⟨C8_region_total_function.2.1 "Canada" (by decide),
   C8_region_total_function.2.2.1 "France" (by decide),
   C8_region_total_function.2.2.2.1 "Brazil" (by decide)⟩

/-- Counterexample to C1: `dropDuplicates` runs before `fillna`, so
filling a null `Country` with "Unknown" can collide with a row that
already held "Unknown"; on `exRawAthletes` the cleaned Athletes table
contains two exactly equal rows. -/
theorem C1_distinct_rows_counterexample : ¬ (cleanAthletes exRawAthletes).Nodup := by
  decide

/-- C1 amended: immediately after duplicate removal no two rows are
exactly equal, and after the fill step no cell of a mapped column is
null (the later rename only changes column names); equal rows can
reappear only because filling may merge two distinct deduplicated
rows. -/
theorem C1_cleaning_amended (m : List (String × Value)) (t : Table) :
    (dropDuplicates t).Nodup ∧
    (∀ row ∈ fillna m (dropDuplicates t), ∀ cv ∈ row,
      (m.lookup cv.1).isSome → cv.2.isSome) := by
  refine ⟨List.nodup_dedup t, ?_⟩
  intro row hrow cv hcv
  rcases List.mem_map.mp hrow with ⟨row0, -, rfl⟩
  rcases List.mem_map.mp hcv with ⟨cv0, -, rfl⟩
  cases h2 : cv0.2 with
  | some x => simp [fillRow, h2]
  | none =>
    cases h3 : m.lookup cv0.1 with
    | some d => simp [fillRow, h2, h3]
    | none => simp [fillRow, h2, h3]

/-- Witness for C1 amended: the filled null Country cell of
`exRawAthletes` is non-null. -/
theorem C1_cleaning_witness :
    ((("Country" : String), some (Value.str "Unknown")).2).isSome :=
  (C1_cleaning_amended athletesFillMap exRawAthletes).2
    [("Country", some (Value.str "Unknown")), ("Discipline", some (Value.str "X"))]
    (by decide) ("Country", some (Value.str "Unknown")) (by decide) (by decide)

/-- Counterexample to C4: renaming `TeamCountry` on a Medals-like table
that lacks that column succeeds and returns the table unchanged — the
whole cleaning step goes through with no SchemaError, contradicting the
claimed failure. -/
theorem C4_rename_counterexample : cleanMedals exNoTeamCountry = exNoTeamCountry := by
  decide

/-- C4 amended: per the PySpark documentation, `withColumnRenamed` is a
no-op when the source column does not occur in the schema, so cleaning
succeeds with the table unchanged instead of failing. -/
theorem C4_rename_amended (old nw : String) (t : Table)
    (h : ∀ row ∈ t, ∀ cv ∈ row, cv.1 ≠ old) :
    withColumnRenamed old nw t = t := by
  unfold withColumnRenamed
  have hrow : ∀ row ∈ t, row.map (fun cv => if cv.1 = old then (nw, cv.2) else cv) = row := by
    intro row hrowmem
    have hcell : ∀ cv ∈ row,
        (fun cv => if cv.1 = old then (nw, cv.2) else cv) cv = id cv := by
      intro cv hcv
      simp only [id]
      rw [if_neg (h row hrowmem cv hcv)]
    rw [List.map_congr_left hcell, List.map_id]
  have hmap : ∀ row ∈ t,
      (fun row => row.map (fun cv => if cv.1 = old then (nw, cv.2) else cv)) row = id row := by
    intro row hrowmem
    simp only [id]
    exact hrow row hrowmem
  rw [List.map_congr_left hmap, List.map_id]

/-- Witness for C4 amended at the concrete table `exNoTeamCountry`. -/
theorem C4_rename_witness :
    withColumnRenamed "TeamCountry" "MedalCountry" exNoTeamCountry = exNoTeamCountry :=
  C4_rename_amended "TeamCountry" "MedalCountry" exNoTeamCountry (by decide)

theorem unpivot_length (p : List PivotRow) : (unpivot_df p).length = 3 * p.length := by
  induction p with
  | nil => rfl
  | cons r rs ih =>
    simp only [unpivot_df, List.flatMap_cons, List.length_append, List.length_cons,
      List.length_nil] at ih ⊢
    omega

theorem unpivot_pivot_eq_flatMap (t : List MedalRow) :
    unpivot_df (pivot_df t) = (medalCountries t).flatMap (fun c =>
      [{ country := c, medal := "Gold", count := sumByCountry t c (fun r => r.gold) },
       { country := c, medal := "Silver", count := sumByCountry t c (fun r => r.silver) },
       { country := c, medal := "Bronze", count := sumByCountry t c (fun r => r.bronze) }]) := by
  unfold unpivot_df pivot_df
  rw [List.flatMap_map]

/-- C6: unpivoting the pivoted medal table emits exactly three rows per
country (Gold, Silver, Bronze in that order), hence 3 times the number
of distinct countries in total, and re-pivoting (grouping by country
and medal label and summing Count) recovers the per-country,
per-medal-type sums. -/
theorem C6_pivot_unpivot_roundtrip (t : List MedalRow) :
    (unpivot_df (pivot_df t)).length = 3 * (medalCountries t).length ∧
    (∀ c ∈ medalCountries t,
      (unpivot_df (pivot_df t)).filter (fun u => decide (u.country = c)) =
        [{ country := c, medal := "Gold", count := sumByCountry t c (fun r => r.gold) },
         { country := c, medal := "Silver", count := sumByCountry t c (fun r => r.silver) },
         { country := c, medal := "Bronze", count := sumByCountry t c (fun r => r.bronze) }] ∧
      repivotSum (unpivot_df (pivot_df t)) c "Gold" = sumByCountry t c (fun r => r.gold) ∧
      repivotSum (unpivot_df (pivot_df t)) c "Silver" = sumByCountry t c (fun r => r.silver) ∧
      repivotSum (unpivot_df (pivot_df t)) c "Bronze" = sumByCountry t c (fun r => r.bronze)) := by
  have hlen : (unpivot_df (pivot_df t)).length = 3 * (medalCountries t).length := by
    rw [unpivot_length]
    unfold pivot_df
    rw [List.length_map]
  refine ⟨hlen, ?_⟩
  intro c hc
  have hfilter : (unpivot_df (pivot_df t)).filter (fun u => decide (u.country = c)) =
      [{ country := c, medal := "Gold", count := sumByCountry t c (fun r => r.gold) },
       { country := c, medal := "Silver", count := sumByCountry t c (fun r => r.silver) },
       { country := c, medal := "Bronze", count := sumByCountry t c (fun r => r.bronze) }] := by
    rw [unpivot_pivot_eq_flatMap]
    refine flatMap_filter_keyed _ (fun u : UnpivotRow => u.country) (medalCountries t)
      (List.nodup_dedup _) ?_ c hc
    intro k _ x hx
    simp only [List.mem_cons, List.not_mem_nil, or_false] at hx
    rcases hx with rfl | rfl | rfl <;> rfl
  have hsplit : ∀ medal : String,
      (unpivot_df (pivot_df t)).filter (fun x => decide (x.country = c ∧ x.medal = medal)) =
        ((unpivot_df (pivot_df t)).filter (fun u => decide (u.country = c))).filter
          (fun x => decide (x.medal = medal)) := by
    intro medal
    rw [List.filter_filter]
    refine List.filter_congr ?_
    intro x _
    by_cases h1 : x.country = c <;> by_cases h2 : x.medal = medal <;> simp [h1, h2]
  refine ⟨hfilter, ?_, ?_, ?_⟩
  · unfold repivotSum
    rw [hsplit "Gold", hfilter]
    simp
  · unfold repivotSum
    rw [hsplit "Silver", hfilter]
    simp
  · unfold repivotSum
    rw [hsplit "Bronze", hfilter]
    simp

/-- Witness for C6 at `exMedals` and its country "USA". -/
theorem C6_roundtrip_witness :
    (unpivot_df (pivot_df exMedals)).filter (fun u => decide (u.country = "USA")) =
      [{ country := "USA", medal := "Gold", count := sumByCountry exMedals "USA" (fun r => r.gold) },
       { country := "USA", medal := "Silver", count := sumByCountry exMedals "USA" (fun r => r.silver) },
       { country := "USA", medal := "Bronze", count := sumByCountry exMedals "USA" (fun r => r.bronze) }] ∧
    repivotSum (unpivot_df (pivot_df exMedals)) "USA" "Gold" =
      sumByCountry exMedals "USA" (fun r => r.gold) :=
  ⟨((C6_pivot_unpivot_roundtrip exMedals).2 "USA" (by decide)).1,
   ((C6_pivot_unpivot_roundtrip exMedals).2 "USA" (by decide)).2.1⟩
